import Mathlib

/-!
Verification development for `ola_video_convert`: a shallow embedding of the
show-file channel decoder (`ParseChans`), line utilities (`trim`,
`split_char`), the frame reader (`read_frame`), the universe-state
accumulator step of `prog`, and the row packer (`write_line` /
`write_lines`), together with theorems about the spec's claims.

Strings are embedded as `List Char`, the C++ `std::array<uint8_t, 512>` as a
`List Nat` of length 512, `std::map<uint32_t, UniverseData>` as an
association list kept sorted by key, and exceptions as `Except` errors.
`parseChansGo` carries a fuel argument in place of the C++ `while` loop; the
fuel `ParseChans` passes (the input length) is provably never exhausted,
since every loop iteration consumes at least one character.
-/

namespace olavc

/-- Failures of the channel decoder `ParseChans`: a position with no digits,
a 1-3 digit value above 255, and more than 512 values. -/
inductive ChanError where
  | malformed
  | overflow
  | tooMany
deriving DecidableEq, Repr

/-- The digit test of `ParseChans`: the C++ loop breaks on
`(c < '0') || (c > '9')`, so a digit is a character between them. -/
def isDigit (c : Char) : Bool := 48 ≤ c.toNat && c.toNat ≤ 57

/-- `s[i + digit] - '0'` of the C++ source. -/
def digitVal (c : Char) : Nat := c.toNat - 48

/-- The value the digit loop of `ParseChans` accumulates with the place
values `mult[(3 - digits) + digit]`, `mult = {100, 10, 1}`, for a run of
1 to 3 digits (the run is never longer). -/
def chanVal : List Char → Nat
  | [a] => digitVal a
  | [a, b] => digitVal a * 10 + digitVal b
  | [a, b, c] => digitVal a * 100 + digitVal b * 10 + digitVal c
  | _ => 0

/-- One iteration of the scanning loop of `ParseChans` per fuel step: consume
one separator when not at the very start, stop successfully when that reaches
the end, read up to 3 digits, and store the value at channel `c`. The
fuel-exhausted arm is unreachable for the fuel `ParseChans` supplies, since
every iteration consumes at least one character. -/
def parseChansGo : Nat → Bool → Nat → List Nat → List Char → Except ChanError (List Nat)
  | _, _, _, d, [] => .ok d
  | 0, _, _, _, _ :: _ => .error .malformed
  | fuel + 1, first, c, d, ch :: rest =>
    let s1 := if first = false ∧ ch = ',' then rest else ch :: rest
    if s1.isEmpty then .ok d
    else
      let ds := (s1.takeWhile isDigit).take 3
      if ds.isEmpty then .error .malformed
      else if 255 < chanVal ds then .error .overflow
      else if 512 ≤ c then .error .tooMany
      else parseChansGo fuel false (c + 1) (d.set c (chanVal ds)) (s1.drop ds.length)

/-- `ParseChans` of the source: scan the comma-separated channel list into a
zero-initialised row of 512 channel values. -/
def ParseChans (s : List Char) : Except ChanError (List Nat) :=
  parseChansGo s.length true 0 (List.replicate 512 0) s

deriving instance DecidableEq for Except

/-- The plain decimal value of a digit string, most significant digit first:
the spec's "decimal parse" of a value. -/
def decValue (ds : List Char) : Nat := ds.foldl (fun a c => a * 10 + digitVal c) 0

/-- A valid channel-list value as the spec describes one: 1 to 3 decimal
digits whose decimal value is at most 255. -/
def validTok (t : List Char) : Bool :=
  !t.isEmpty && decide (t.length ≤ 3) && t.all isDigit && decide (decValue t ≤ 255)

/-- The input remaining after the first value of a comma-separated channel
list: each further value is preceded by a single comma. -/
def tailJoin : List (List Char) → List Char
  | [] => []
  | t :: ts => ',' :: (t ++ tailJoin ts)

/-- A comma-separated channel list built from the given values. -/
def joinChans : List (List Char) → List Char
  | [] => []
  | t :: ts => t ++ tailJoin ts

/-- The row resulting from storing the given values at consecutive channel
indices starting at `c`. -/
def writeSeq (d : List Nat) (c : Nat) : List (List Char) → List Nat
  | [] => d
  | t :: ts => writeSeq (d.set c (chanVal t)) (c + 1) ts

lemma chanVal_eq_decValue : ∀ t : List Char, t ≠ [] → t.length ≤ 3 → chanVal t = decValue t
  | [], h, _ => absurd rfl h
  | [_], _, _ => by simp [chanVal, decValue, List.foldl]
  | [_, _], _, _ => by simp [chanVal, decValue, List.foldl]
  | [_, _, _], _, _ => by simp [chanVal, decValue, List.foldl]; ring
  | _ :: _ :: _ :: _ :: _, _, h => by simp [List.length_cons] at h

lemma validTok_spec {t : List Char} (h : validTok t = true) :
    t ≠ [] ∧ t.length ≤ 3 ∧ (∀ c ∈ t, isDigit c = true) ∧ decValue t ≤ 255 := by
  simp only [validTok, Bool.and_eq_true, Bool.not_eq_true', List.isEmpty_eq_false,
    decide_eq_true_eq, List.all_eq_true] at h
  exact ⟨h.1.1.1, h.1.1.2, h.1.2, h.2⟩

lemma tailJoin_shape (ts : List (List Char)) :
    tailJoin ts = [] ∨ ∃ r2, tailJoin ts = ',' :: r2 := by
  cases ts <;> simp [tailJoin]

lemma takeWhile_digits_append {t r : List Char} (ht : ∀ c ∈ t, isDigit c = true)
    (hr : r = [] ∨ ∃ r2, r = ',' :: r2) : (t ++ r).takeWhile isDigit = t := by
  have h1 : (t ++ r).takeWhile isDigit = t ++ r.takeWhile isDigit :=
    List.takeWhile_append_of_pos ht
  have h2 : r.takeWhile isDigit = [] := by
    rcases hr with h | ⟨r2, h⟩ <;> subst h
    · rfl
    · exact List.takeWhile_cons_of_neg (by decide)
  rw [h1, h2, List.append_nil]

/-- One full loop iteration of `ParseChans` on a valid value followed by the
rest of the input (which is empty or starts at a separator): the value is
stored at channel `c` and the scan resumes after it. -/
lemma parseChansGo_token {fuel c : Nat} {d : List Nat} {b : Bool} {t r : List Char}
    (hne : t ≠ []) (hdig : ∀ ch ∈ t, isDigit ch = true) (hlen : t.length ≤ 3)
    (hr : r = [] ∨ ∃ r2, r = ',' :: r2) (hv : chanVal t ≤ 255) (hc : c < 512) :
    parseChansGo (fuel + 1) b c d (t ++ r) =
      parseChansGo fuel false (c + 1) (d.set c (chanVal t)) r := by
  obtain ⟨ch, t2, rfl⟩ : ∃ ch t2, t = ch :: t2 := by
    cases t with
    | nil => exact absurd rfl hne
    | cons x xs => exact ⟨x, xs, rfl⟩
  have hch : isDigit ch = true := hdig ch (by simp)
  have hcomma : ¬(b = false ∧ ch = ',') := by
    rintro ⟨-, rfl⟩
    exact absurd hch (by decide)
  have hds : (ch :: (t2 ++ r)).takeWhile isDigit = ch :: t2 := by
    have h0 := takeWhile_digits_append hdig hr
    rwa [List.cons_append] at h0
  have htake : (ch :: t2).take 3 = ch :: t2 := List.take_of_length_le hlen
  have hdrop : (ch :: (t2 ++ r)).drop (ch :: t2).length = r := by
    have h0 := List.drop_left (ch :: t2) r
    rwa [List.cons_append] at h0
  rw [List.cons_append]
  simp only [parseChansGo]
  rw [if_neg hcomma, hds, htake, hdrop]
  rw [if_neg (by simp), if_neg (by simp)]
  rw [if_neg (Nat.not_lt.mpr hv), if_neg (Nat.not_le.mpr hc)]

lemma parseChansGo_tailJoin : ∀ (ts : List (List Char)) (fuel c : Nat) (d : List Nat),
    (∀ t ∈ ts, validTok t = true) → c + ts.length ≤ 512 →
    (tailJoin ts).length ≤ fuel →
    parseChansGo fuel false c d (tailJoin ts) = .ok (writeSeq d c ts)
  | [], fuel, c, d, _, _, _ => by
    cases fuel <;> simp [tailJoin, parseChansGo, writeSeq]
  | t :: ts2, fuel, c, d, hv, hc, hf => by
    obtain ⟨hne, hlen, hdig, hval⟩ := validTok_spec (hv t (by simp))
    obtain ⟨ch, t2, rfl⟩ : ∃ ch t2, t = ch :: t2 := by
      cases t with
      | nil => exact absurd rfl hne
      | cons x xs => exact ⟨x, xs, rfl⟩
    cases fuel with
    | zero =>
      exfalso
      simp only [tailJoin, List.length_cons, List.length_append] at hf
      omega
    | succ f =>
      have hds : (ch :: (t2 ++ tailJoin ts2)).takeWhile isDigit = ch :: t2 := by
        have h0 := takeWhile_digits_append hdig (tailJoin_shape ts2)
        rwa [List.cons_append] at h0
      have htake : (ch :: t2).take 3 = ch :: t2 := List.take_of_length_le hlen
      have hdrop : (ch :: (t2 ++ tailJoin ts2)).drop (ch :: t2).length = tailJoin ts2 := by
        have h0 := List.drop_left (ch :: t2) (tailJoin ts2)
        rwa [List.cons_append] at h0
      have hcv : chanVal (ch :: t2) ≤ 255 := by
        rw [chanVal_eq_decValue _ hne hlen]; exact hval
      have hc1 : c < 512 := by
        simp only [List.length_cons] at hc
        omega
      show parseChansGo (f + 1) false c d (',' :: ((ch :: t2) ++ tailJoin ts2)) = _
      rw [List.cons_append]
      simp only [parseChansGo, and_self, if_true]
      rw [hds, htake, hdrop]
      rw [if_neg (by simp), if_neg (by simp)]
      rw [if_neg (Nat.not_lt.mpr hcv), if_neg (Nat.not_le.mpr hc1)]
      rw [parseChansGo_tailJoin ts2 f (c + 1) _ (fun u hu => hv u (by simp [hu]))
        (by simp only [List.length_cons] at hc; omega)
        (by simp only [tailJoin, List.length_cons, List.length_append] at hf; omega)]
      rfl

lemma parseChansGo_joinChans (toks : List (List Char)) (fuel : Nat) (b : Bool) (c : Nat)
    (d : List Nat) (hv : ∀ t ∈ toks, validTok t = true) (hc : c + toks.length ≤ 512)
    (hf : (joinChans toks).length ≤ fuel) :
    parseChansGo fuel b c d (joinChans toks) = .ok (writeSeq d c toks) := by
  cases toks with
  | nil => cases fuel <;> simp [joinChans, parseChansGo, writeSeq]
  | cons t ts =>
    obtain ⟨hne, hlen, hdig, hval⟩ := validTok_spec (hv t (by simp))
    have hlent : 1 ≤ t.length := List.length_pos.mpr hne
    cases fuel with
    | zero =>
      exfalso
      simp only [joinChans, List.length_append] at hf
      omega
    | succ f =>
      have hcv : chanVal t ≤ 255 := by
        rw [chanVal_eq_decValue t hne hlen]; exact hval
      have hc1 : c < 512 := by
        simp only [List.length_cons] at hc
        omega
      rw [show joinChans (t :: ts) = t ++ tailJoin ts from rfl]
      rw [parseChansGo_token hne hdig hlen (tailJoin_shape ts) hcv hc1]
      rw [parseChansGo_tailJoin ts f (c + 1) _ (fun u hu => hv u (by simp [hu]))
        (by simp only [List.length_cons] at hc; omega)
        (by simp only [joinChans, List.length_append] at hf; omega)]
      rfl

lemma getD_set_self {l : List Nat} {i v : Nat} (h : i < l.length) :
    (l.set i v).getD i 0 = v := by
  simp [List.getD_eq_getElem?_getD, List.getElem?_set_self h]

lemma getD_set_ne {l : List Nat} {i j v : Nat} (h : i ≠ j) :
    (l.set i v).getD j 0 = l.getD j 0 := by
  simp [List.getD_eq_getElem?_getD, List.getElem?_set_ne h]

lemma writeSeq_length : ∀ (ts : List (List Char)) (d : List Nat) (c : Nat),
    (writeSeq d c ts).length = d.length
  | [], _, _ => rfl
  | t :: ts, d, c => by
    rw [writeSeq, writeSeq_length ts]
    simp

lemma writeSeq_getD : ∀ (ts : List (List Char)) (d : List Nat) (c i : Nat),
    c + ts.length ≤ d.length →
    (writeSeq d c ts).getD i 0 =
      if c ≤ i ∧ i < c + ts.length then (ts.map chanVal).getD (i - c) 0 else d.getD i 0
  | [], d, c, i, _ => by
    rw [writeSeq, if_neg (by simp only [List.length_nil]; omega)]
  | t :: ts, d, c, i, h => by
    simp only [List.length_cons] at h
    simp only [writeSeq, List.length_cons]
    rw [writeSeq_getD ts (d.set c (chanVal t)) (c + 1) i (by simp; omega)]
    by_cases hic : i = c
    · subst hic
      rw [if_neg (by omega), if_pos (by omega)]
      rw [getD_set_self (by omega)]
      simp
    · rw [getD_set_ne (fun hh => hic hh.symm)]
      by_cases h2 : c + 1 ≤ i ∧ i < c + 1 + ts.length
      · rw [if_pos h2, if_pos (by omega)]
        have hsub : i - c = (i - (c + 1)) + 1 := by omega
        rw [hsub]
        simp
      · rw [if_neg h2, if_neg (by omega)]

lemma getD_replicate_zero {n i : Nat} : (List.replicate n (0 : Nat)).getD i 0 = 0 := by
  rw [List.getD_eq_getElem?_getD, List.getElem?_replicate]
  split <;> rfl

/-- C1: for every channel list of valid 1-3-digit comma-separated values,
each at most 255 and at most 512 in total, `ParseChans` succeeds with a
512-entry row whose i-th entry is the decimal parse of the i-th value and
whose remaining entries are 0 (the empty list is the empty string's case). -/
theorem claim1 (toks : List (List Char)) (hv : ∀ t ∈ toks, validTok t = true)
    (hlen : toks.length ≤ 512) :
    ∃ d, ParseChans (joinChans toks) = .ok d ∧ d.length = 512 ∧
      ∀ i, d.getD i 0 = if i < toks.length then (toks.map decValue).getD i 0 else 0 := by
  refine ⟨writeSeq (List.replicate 512 0) 0 toks, ?_, ?_, ?_⟩
  · exact parseChansGo_joinChans toks _ true 0 _ hv (by omega) (Nat.le_refl _)
  · rw [writeSeq_length, List.length_replicate]
  · intro i
    rw [writeSeq_getD toks _ 0 i (by simp only [List.length_replicate]; omega)]
    have hmap : toks.map chanVal = toks.map decValue :=
      List.map_congr_left (fun t ht => by
        obtain ⟨hne, hl3, _, _⟩ := validTok_spec (hv t ht)
        exact chanVal_eq_decValue t hne hl3)
    rw [hmap]
    by_cases hi : i < toks.length
    · rw [if_pos (by omega), if_pos hi]
      simp
    · rw [if_neg (by omega), if_neg hi, getD_replicate_zero]

/-- Witness for C1 at the concrete channel list "1,02,255". -/
theorem claim1_witness :
    ∃ d, ParseChans (joinChans [['1'], ['0', '2'], ['2', '5', '5']]) = .ok d ∧
      d.length = 512 ∧
      ∀ i, d.getD i 0 =
        if i < ([['1'], ['0', '2'], ['2', '5', '5']] : List (List Char)).length
        then (([['1'], ['0', '2'], ['2', '5', '5']] : List (List Char)).map decValue).getD i 0
        else 0 :=
  claim1 [['1'], ['0', '2'], ['2', '5', '5']] (by decide) (by decide)

/-- C2: the channel decoder caps every digit run at 3 digits: with 4 or more
digits ahead, the first 3 form one value stored at the current channel and
the scan resumes at the 4th digit with no separator required there; in
particular "1234" decodes to 123 then 4 at consecutive channel indices. -/
theorem claim2 :
    (∀ (fuel : Nat) (b : Bool) (c : Nat) (d : List Nat) (s : List Char),
        (s.take 4).all isDigit = true → 4 ≤ s.length →
        chanVal (s.take 3) ≤ 255 → c < 512 →
        parseChansGo (fuel + 1) b c d s =
          parseChansGo fuel false (c + 1) (d.set c (chanVal (s.take 3))) (s.drop 3)) ∧
    ParseChans ("1234".toList) = .ok (((List.replicate 512 0).set 0 123).set 1 4) := by
  constructor
  · intro fuel b c d s hall hlen hv hc
    obtain ⟨a1, a2, a3, a4, rest, rfl⟩ :
        ∃ a1 a2 a3 a4 rest, s = a1 :: a2 :: a3 :: a4 :: rest := by
      cases s with
      | nil => simp at hlen
      | cons a1 s1 =>
        cases s1 with
        | nil => simp at hlen
        | cons a2 s2 =>
          cases s2 with
          | nil => simp at hlen
          | cons a3 s3 =>
            cases s3 with
            | nil => simp at hlen
            | cons a4 rest => exact ⟨a1, a2, a3, a4, rest, rfl⟩
    simp only [List.take_succ_cons, List.take_zero, List.all_cons, List.all_nil,
      Bool.and_eq_true] at hall
    obtain ⟨h1, h2, h3, h4, -⟩ := hall
    have hcomma : ¬(b = false ∧ a1 = ',') := by
      rintro ⟨-, rfl⟩
      exact absurd h1 (by decide)
    have hds : (a1 :: a2 :: a3 :: a4 :: rest).takeWhile isDigit
        = a1 :: a2 :: a3 :: ((a4 :: rest).takeWhile isDigit) := by
      rw [List.takeWhile_cons_of_pos h1, List.takeWhile_cons_of_pos h2,
        List.takeWhile_cons_of_pos h3]
    simp only [List.take_succ_cons, List.take_zero] at hv
    simp only [parseChansGo]
    rw [if_neg hcomma, hds]
    simp only [List.take_succ_cons, List.take_zero, List.isEmpty_cons, List.length_cons,
      List.length_nil, List.drop_succ_cons, List.drop_zero]
    rw [if_neg (by simp), if_neg (by simp)]
    rw [if_neg (Nat.not_lt.mpr hv), if_neg (Nat.not_le.mpr hc)]
  · rfl

lemma parseChansGo_malformed_step {fuel c : Nat} {d : List Nat} {b : Bool} {ch : Char}
    {rest : List Char} (hcomma : ¬(b = false ∧ ch = ',')) (hdg : isDigit ch = false) :
    parseChansGo (fuel + 1) b c d (ch :: rest) = .error .malformed := by
  simp only [parseChansGo]
  rw [if_neg hcomma, List.takeWhile_cons_of_neg (by simp [hdg])]
  rw [if_neg (by simp), if_pos (by simp)]

/-- C3: failure cases of the channel decoder: no digits available at the
scan position gives MalformedChannelList, a 1-3-digit value above 255 gives
ChannelValueOverflow, and storing a 513th value gives TooManyChannels;
"1,,2" and "256" are concrete malformed and overflow inputs, and 513
comma-separated zeros overflow the channel count. -/
theorem claim3 :
    (∀ (fuel c : Nat) (d : List Nat) (b : Bool) (ch : Char) (rest : List Char),
        isDigit ch = false → ch ≠ ',' →
        parseChansGo (fuel + 1) b c d (ch :: rest) = .error .malformed) ∧
    (∀ (fuel c : Nat) (d : List Nat) (rest : List Char),
        parseChansGo (fuel + 1) true c d (',' :: rest) = .error .malformed) ∧
    (∀ (fuel c : Nat) (d : List Nat) (b : Bool) (ch : Char) (rest : List Char),
        isDigit ch = true →
        255 < chanVal (((ch :: rest).takeWhile isDigit).take 3) →
        parseChansGo (fuel + 1) b c d (ch :: rest) = .error .overflow) ∧
    (∀ (fuel c : Nat) (d : List Nat) (b : Bool) (ch : Char) (rest : List Char),
        isDigit ch = true →
        chanVal (((ch :: rest).takeWhile isDigit).take 3) ≤ 255 → 512 ≤ c →
        parseChansGo (fuel + 1) b c d (ch :: rest) = .error .tooMany) ∧
    ParseChans ("1,,2".toList) = .error .malformed ∧
    ParseChans ("256".toList) = .error .overflow ∧
    ParseChans (joinChans (List.replicate 513 ['0'])) = .error .tooMany := by
  refine ⟨?_, ?_, ?_, ?_, rfl, rfl, ?_⟩
  · intro fuel c d b ch rest hdg hch
    exact parseChansGo_malformed_step (fun h => hch h.2) hdg
  · intro fuel c d rest
    exact parseChansGo_malformed_step (fun h => nomatch h.1) (by decide)
  · intro fuel c d b ch rest hdg hv
    have hcomma : ¬(b = false ∧ ch = ',') := by
      rintro ⟨-, rfl⟩
      exact absurd hdg (by decide)
    have hemp : (((ch :: rest).takeWhile isDigit).take 3).isEmpty = false := by
      rw [List.takeWhile_cons_of_pos hdg]
      rfl
    simp only [parseChansGo]
    rw [if_neg hcomma, if_neg (by simp), if_neg (by simp [hemp]), if_pos hv]
  · intro fuel c d b ch rest hdg hv hc
    have hcomma : ¬(b = false ∧ ch = ',') := by
      rintro ⟨-, rfl⟩
      exact absurd hdg (by decide)
    have hemp : (((ch :: rest).takeWhile isDigit).take 3).isEmpty = false := by
      rw [List.takeWhile_cons_of_pos hdg]
      rfl
    simp only [parseChansGo]
    rw [if_neg hcomma, if_neg (by simp), if_neg (by simp [hemp])]
    rw [if_neg (Nat.not_lt.mpr hv), if_pos hc]
  · set_option maxRecDepth 10000 in decide

/-- Header token of the V1 OLA show file. -/
def show_header : List Char := "OLA Show".toList

/-- std::isspace of the classic locale, as the source's trim uses it. -/
def isSpace (c : Char) : Bool :=
  c == ' ' || c == '\t' || c == '\n' || c == '\x0b' || c == '\x0c' || c == '\r'

/-- The trim of the source: drop leading and trailing whitespace. -/
def trim (s : List Char) : List Char :=
  ((s.dropWhile isSpace).reverse.dropWhile isSpace).reverse

/-- split_char of the source: find the first occurrence of `c` (else return
the whole string and an empty rest), skip the run of `c` after it, and split
there; the first part keeps the separator run. -/
def split_char (s : List Char) (c : Char) : List Char × List Char :=
  let bpos := s.findIdx (fun x => x == c)
  if bpos = s.length then (s, [])
  else
    let b2 := bpos + (s.drop bpos).findIdx (fun x => !(x == c))
    (s.take b2, s.drop b2)

/-- std::from_chars into a uint32: the longest leading digit run is the
number; it fails when that run is empty (for example on a leading minus
sign) or its value exceeds the unsigned 32-bit range. -/
def from_chars_u32 (s : List Char) : Option Nat :=
  let ds := s.takeWhile isDigit
  if ds.isEmpty then none
  else if decValue ds < 4294967296 then some (decValue ds) else none

/-- One classified line of the show file. -/
inductive RecordKind where
  | blank
  | header
  | duration (ms : Nat)
  | universeData (uid : Nat) (chans : List Nat)
deriving DecidableEq

/-- Errors the reader can raise; channel-decoder errors are wrapped. -/
inductive ReadError where
  | malformedInteger
  | chan (e : ChanError)
  | noDataBeforeDuration
deriving DecidableEq

/-- The per-line classification the body of read_frame performs: trim, skip
header and blank lines, split at the first space run with split_char, parse
the leading part with from_chars, and decode the remainder as channel data
when there is one. -/
def classify_line (line : List Char) : Except ReadError RecordKind :=
  let bufv := trim line
  if bufv = show_header then .ok .header
  else if bufv.isEmpty then .ok .blank
  else
    let p := split_char bufv ' '
    match from_chars_u32 p.1 with
    | none => .error .malformedInteger
    | some val =>
      if p.2.isEmpty then .ok (.duration val)
      else
        match ParseChans p.2 with
        | .error e => .error (.chan e)
        | .ok dd => .ok (.universeData val dd)

/-- OLAFrame of the source; `data` is the 512-channel row. -/
structure OLAFrame where
  duration_ms : Int
  universe_id : Nat
  data : List Nat
deriving DecidableEq

/-- A cleared frame, as OLAFrame::clear leaves it. -/
def frame0 : OLAFrame := ⟨0, 0, List.replicate 512 0⟩

/-- The line loop of read_frame over the remaining input lines: skip header
and blank lines, record each universe-data line as the pending update, and
finish on a duration line, or at end of input with duration -1 when a
universe-data line was consumed and with `none` (clean end of show)
otherwise. The returned pair carries the unconsumed lines. -/
def read_frameGo : List (List Char) → OLAFrame → Bool →
    Except ReadError (Option (OLAFrame × List (List Char)))
  | [], f, readdata =>
    if readdata then .ok (some (⟨-1, f.universe_id, f.data⟩, [])) else .ok none
  | line :: rest, f, readdata =>
    match classify_line line with
    | .error e => .error e
    | .ok .header => read_frameGo rest f readdata
    | .ok .blank => read_frameGo rest f readdata
    | .ok (.duration ms) =>
      if readdata then .ok (some (⟨(ms : Int), f.universe_id, f.data⟩, rest))
      else .error .noDataBeforeDuration
    | .ok (.universeData uid dd) => read_frameGo rest ⟨f.duration_ms, uid, dd⟩ true

/-- One call of read_frame of the source: the loop on a cleared frame with
the "has data" flag reset. -/
def read_frame (lines : List (List Char)) :
    Except ReadError (Option (OLAFrame × List (List Char))) :=
  read_frameGo lines frame0 false

/-- A line the reader skips: a header or a blank line. -/
def skippable (l : List Char) : Prop :=
  classify_line l = .ok .header ∨ classify_line l = .ok .blank

lemma read_frameGo_skip {l : List Char} (h : skippable l) (rest : List (List Char))
    (f : OLAFrame) (b : Bool) : read_frameGo (l :: rest) f b = read_frameGo rest f b := by
  rcases h with h | h <;> simp [read_frameGo, h]

lemma read_frameGo_skipAll (pre : List (List Char)) :
    ∀ (x : List (List Char)) (f : OLAFrame) (b : Bool), (∀ l ∈ pre, skippable l) →
      read_frameGo (pre ++ x) f b = read_frameGo x f b := by
  induction pre with
  | nil => intro x f b _; rfl
  | cons l p2 ih =>
    intro x f b hl
    rw [List.cons_append, read_frameGo_skip (hl l (by simp)),
      ih x f b (fun y hy => hl y (by simp [hy]))]

lemma read_frameGo_all_skippable (lines : List (List Char)) :
    ∀ (f : OLAFrame) (b : Bool), (∀ l ∈ lines, skippable l) →
      read_frameGo lines f b =
        if b then .ok (some (⟨-1, f.universe_id, f.data⟩, [])) else .ok none := by
  induction lines with
  | nil => intro f b _; cases b <;> simp [read_frameGo]
  | cons l rest ih =>
    intro f b hl
    rw [read_frameGo_skip (hl l (by simp)) rest f b]
    exact ih f b (fun x hx => hl x (by simp [hx]))

/-- C7: at end of the input stream, a call that consumed a universe-data
line returns that pending update with the sentinel duration -1, and a call
that consumed none signals a clean end of show with no event; header and
blank lines may be skipped on the way. -/
theorem claim7 :
    (∀ (lines : List (List Char)) (f : OLAFrame), (∀ l ∈ lines, skippable l) →
        read_frameGo lines f true = .ok (some (⟨-1, f.universe_id, f.data⟩, []))) ∧
    (∀ lines : List (List Char), (∀ l ∈ lines, skippable l) →
        read_frame lines = .ok none) ∧
    (∀ (pre post : List (List Char)) (u : List Char) (uid : Nat) (dd : List Nat),
        (∀ l ∈ pre, skippable l) → (∀ l ∈ post, skippable l) →
        classify_line u = .ok (.universeData uid dd) →
        read_frame (pre ++ u :: post) = .ok (some (⟨-1, uid, dd⟩, []))) := by
  refine ⟨?_, ?_, ?_⟩
  · intro lines f hl
    rw [read_frameGo_all_skippable lines f true hl]
    rfl
  · intro lines hl
    show read_frameGo lines frame0 false = .ok none
    rw [read_frameGo_all_skippable lines frame0 false hl]
    rfl
  · intro pre post u uid dd hpre hpost hu
    show read_frameGo (pre ++ u :: post) frame0 false = _
    rw [read_frameGo_skipAll pre (u :: post) frame0 false hpre]
    rw [show read_frameGo (u :: post) frame0 false =
        read_frameGo post ⟨frame0.duration_ms, uid, dd⟩ true from by
      simp [read_frameGo, hu]]
    rw [read_frameGo_all_skippable post _ true hpost]
    rfl

/-- C8: consecutive universe-data records before a duration record are
resolved last-wins: a universe-data line wholesale replaces the pending
update (id and freshly decoded row), so the call returns only the last one;
concretely, lines "0 10,20", "1 5", "7" yield universe 1 with only channel
0 set (to 5) and duration 7. -/
theorem claim8 :
    (∀ (lines : List (List Char)) (u : List Char) (f : OLAFrame) (b : Bool)
        (uid : Nat) (dd : List Nat),
        classify_line u = .ok (.universeData uid dd) →
        read_frameGo (u :: lines) f b = read_frameGo lines ⟨f.duration_ms, uid, dd⟩ true) ∧
    (∀ (us : List (List Char)) (u durline : List Char) (rest : List (List Char))
        (f : OLAFrame) (b : Bool) (ms uid : Nat) (dd : List Nat),
        (∀ l ∈ us, ∃ i ee, classify_line l = .ok (.universeData i ee)) →
        classify_line u = .ok (.universeData uid dd) →
        classify_line durline = .ok (.duration ms) →
        read_frameGo (us ++ u :: durline :: rest) f b =
          .ok (some (⟨(ms : Int), uid, dd⟩, rest))) ∧
    read_frame ("0 10,20".toList :: "1 5".toList :: "7".toList :: []) =
      .ok (some (⟨7, 1, (List.replicate 512 0).set 0 5⟩, [])) := by
  have step : ∀ (lines : List (List Char)) (u : List Char) (f : OLAFrame) (b : Bool)
      (uid : Nat) (dd : List Nat), classify_line u = .ok (.universeData uid dd) →
      read_frameGo (u :: lines) f b = read_frameGo lines ⟨f.duration_ms, uid, dd⟩ true := by
    intro lines u f b uid dd hu
    simp [read_frameGo, hu]
  refine ⟨step, ?_, rfl⟩
  intro us
  induction us with
  | nil =>
    intro u durline rest f b ms uid dd _ hu hdur
    rw [List.nil_append, step _ u f b uid dd hu]
    simp [read_frameGo, hdur]
  | cons l us2 ih =>
    intro u durline rest f b ms uid dd hus hu hdur
    obtain ⟨i, ee, hl⟩ := hus l (by simp)
    rw [List.cons_append, step _ l f b i ee hl]
    exact ih u durline rest _ true ms uid dd (fun y hy => hus y (by simp [hy])) hu hdur

lemma read_frame_noData (pre : List (List Char)) {durline : List Char}
    {rest : List (List Char)} {ms : Nat} (hpre : ∀ l ∈ pre, skippable l)
    (hdur : classify_line durline = .ok (.duration ms)) :
    read_frame (pre ++ durline :: rest) = .error .noDataBeforeDuration := by
  show read_frameGo (pre ++ durline :: rest) frame0 false = _
  rw [read_frameGo_skipAll pre (durline :: rest) frame0 false hpre]
  simp [read_frameGo, hdur]

/-- C9: a duration-only line with no universe-data record earlier in the
same call fails with NoDataBeforeDuration; "7" as the very first line
fails, and since the "has data" flag is reset at the start of every call, a
duration line immediately after a completed event also fails instead of
reusing the previous call's data. -/
theorem claim9 :
    (∀ (pre : List (List Char)) (durline : List Char) (rest : List (List Char)) (ms : Nat),
        (∀ l ∈ pre, skippable l) → classify_line durline = .ok (.duration ms) →
        read_frame (pre ++ durline :: rest) = .error .noDataBeforeDuration) ∧
    read_frame (['7'] :: []) = .error .noDataBeforeDuration ∧
    (∀ (lines rest2 : List (List Char)) (f1 : OLAFrame) (durline : List Char) (ms : Nat),
        read_frame lines = .ok (some (f1, durline :: rest2)) →
        classify_line durline = .ok (.duration ms) →
        read_frame (durline :: rest2) = .error .noDataBeforeDuration) ∧
    read_frame ("0 1".toList :: "5".toList :: "7".toList :: []) =
      .ok (some (⟨5, 0, (List.replicate 512 0).set 0 1⟩, ["7".toList])) := by
  refine ⟨?_, rfl, ?_, rfl⟩
  · intro pre durline rest ms hpre hdur
    exact read_frame_noData pre hpre hdur
  · intro lines rest2 f1 durline ms _ hdur
    exact read_frame_noData [] (fun l hl => absurd hl (by simp)) hdur

lemma from_chars_u32_lt {s : List Char} {v : Nat} (h : from_chars_u32 s = some v) :
    v < 4294967296 := by
  simp only [from_chars_u32] at h
  split at h
  · exact absurd h (by simp)
  · split at h
    · rename_i hlt
      cases h
      exact hlt
    · exact absurd h (by simp)

lemma classify_duration_lt {l : List Char} {ms : Nat}
    (h : classify_line l = .ok (.duration ms)) : ms < 4294967296 := by
  simp only [classify_line] at h
  split at h
  · simp at h
  · split at h
    · simp at h
    · split at h
      · simp at h
      · rename_i val heq
        split at h
        · simp only [Except.ok.injEq, RecordKind.duration.injEq] at h
          subst h
          exact from_chars_u32_lt heq
        · split at h <;> simp at h

/-- C10: every event a reader call returns carries either a duration parsed
from a duration line as an unsigned 32-bit integer — hence in
[0, 4294967295] — or the sentinel -1, which arises only at end of input
(nothing of the stream remains); and a literal "-1" duration line is
rejected as a malformed integer, never read as the sentinel. -/
theorem claim10 :
    (∀ (lines : List (List Char)) (f : OLAFrame) (b : Bool) (g : OLAFrame)
        (rest : List (List Char)),
        read_frameGo lines f b = .ok (some (g, rest)) →
        (0 ≤ g.duration_ms ∧ g.duration_ms < 4294967296) ∨
          (g.duration_ms = -1 ∧ rest = [])) ∧
    (∀ (rest : List (List Char)) (f : OLAFrame) (b : Bool),
        read_frameGo ("-1".toList :: rest) f b = .error .malformedInteger) := by
  constructor
  · intro lines
    induction lines with
    | nil =>
      intro f b g rest h
      cases b with
      | false => simp [read_frameGo] at h
      | true =>
        simp only [read_frameGo] at h
        rw [if_pos trivial] at h
        simp only [Except.ok.injEq, Option.some.injEq, Prod.mk.injEq] at h
        obtain ⟨h1, h2⟩ := h
        subst h1
        subst h2
        exact Or.inr ⟨rfl, rfl⟩
    | cons l ls ih =>
      intro f b g rest h
      cases hcl : classify_line l with
      | error e =>
        simp [read_frameGo, hcl] at h
      | ok k =>
        cases k with
        | header =>
          simp only [read_frameGo, hcl] at h
          exact ih f b g rest h
        | blank =>
          simp only [read_frameGo, hcl] at h
          exact ih f b g rest h
        | duration ms =>
          cases b with
          | false => simp [read_frameGo, hcl] at h
          | true =>
            simp only [read_frameGo, hcl] at h
            rw [if_pos trivial] at h
            simp only [Except.ok.injEq, Option.some.injEq, Prod.mk.injEq] at h
            obtain ⟨h1, h2⟩ := h
            subst h1
            subst h2
            have hms := classify_duration_lt hcl
            refine Or.inl ⟨by simp, ?_⟩
            show (ms : Int) < 4294967296
            exact_mod_cast hms
        | universeData uid dd =>
          simp only [read_frameGo, hcl] at h
          exact ih _ true g rest h
  · intro rest f b
    rfl

/-- The universe-state table of the source (std::map<uint32_t,
UniverseData>) as an association list with keys in ascending order. -/
abbrev UStates := List (Nat × List Nat)

/-- `universe_states[f.universe] = f.data` of the source: ordered-map
insert-or-overwrite keeping keys ascending. -/
def insertU : UStates → Nat → List Nat → UStates
  | [], k, v => [(k, v)]
  | (k2, v2) :: rest, k, v =>
    if k < k2 then (k, v) :: (k2, v2) :: rest
    else if k = k2 then (k, v) :: rest
    else (k2, v2) :: insertU rest k v

/-- Ordered-map lookup. -/
def lookupU : UStates → Nat → Option (List Nat)
  | [], _ => none
  | (k2, v2) :: rest, k => if k = k2 then some v2 else lookupU rest k

/-- What the conversion loop does with one accepted event: emit no frame, or
hand exactly one frame of the given duration to the sink. -/
inductive CommitDecision where
  | skip
  | commit (duration_ms : Int)
deriving DecidableEq

/-- Failures of the conversion loop body. -/
inductive ApplyError where
  | tooManyUniverses
  | incompleteUniverseSet
deriving DecidableEq

/-- The body of the conversion loop of prog for one read frame, against the
declared universe count `u` and the last-duration option value: overwrite
the table entry, fail above `u` universes, skip zero-duration events,
replace the -1 sentinel by the last-frame duration, and require exactly `u`
universes present before committing. -/
def applyEvent (u : Nat) (lastFrameTime : Int) (st : UStates) (f : OLAFrame) :
    Except ApplyError (UStates × CommitDecision) :=
  let st2 := insertU st f.universe_id f.data
  if u < st2.length then .error .tooManyUniverses
  else if f.duration_ms = 0 then .ok (st2, .skip)
  else
    let dms := if f.duration_ms = -1 then lastFrameTime else f.duration_ms
    if st2.length ≠ u then .error .incompleteUniverseSet
    else .ok (st2, .commit dms)

lemma lookupU_insertU_self : ∀ (st : UStates) (k : Nat) (v : List Nat),
    lookupU (insertU st k v) k = some v
  | [], k, v => by simp [insertU, lookupU]
  | (k2, v2) :: rest, k, v => by
    simp only [insertU]
    by_cases h1 : k < k2
    · rw [if_pos h1]
      simp [lookupU]
    · rw [if_neg h1]
      by_cases h2 : k = k2
      · rw [if_pos h2]
        simp [lookupU]
      · rw [if_neg h2]
        simp only [lookupU]
        rw [if_neg h2]
        exact lookupU_insertU_self rest k v

lemma lookupU_insertU_ne : ∀ (st : UStates) (k k3 : Nat) (v : List Nat), k3 ≠ k →
    lookupU (insertU st k v) k3 = lookupU st k3
  | [], k, k3, v, h => by
    simp only [insertU, lookupU]
    rw [if_neg h]
  | (k2, v2) :: rest, k, k3, v, h => by
    simp only [insertU]
    by_cases h1 : k < k2
    · rw [if_pos h1]
      simp only [lookupU]
      rw [if_neg h]
    · rw [if_neg h1]
      by_cases h2 : k = k2
      · rw [if_pos h2]
        subst h2
        simp only [lookupU]
        rw [if_neg h, if_neg h]
      · rw [if_neg h2]
        simp only [lookupU]
        by_cases h3 : k3 = k2
        · rw [if_pos h3, if_pos h3]
        · rw [if_neg h3, if_neg h3]
          exact lookupU_insertU_ne rest k k3 v h

/-- Counterexample to C5 as stated: with a caller-supplied final-frame
duration of 0, a sentinel (-1) event on a complete table commits a frame of
duration 0, which is not at least 1. -/
theorem claim5_cex :
    applyEvent 1 0 [] ⟨-1, 0, List.replicate 512 0⟩ =
      .ok ([(0, List.replicate 512 0)], .commit 0) ∧ ¬((1 : Int) ≤ 0) :=
  ⟨rfl, by decide⟩

/-- C5 (amended): applying an event overwrites the entry for its universe id
and leaves other ids unchanged; more than `u` distinct ids fails with
TooManyUniverses; a zero duration is a skip; a non-zero duration on a table
without exactly `u` ids fails with IncompleteUniverseSet; otherwise exactly
one frame is committed whose duration is wait_ms with the -1 sentinel
replaced by the caller's last-frame duration (no minimum is enforced: the
committed duration is at least 1 only when the supplied last-frame duration
is, durations from the stream being 0 or positive with 0 skipped); and the
spec's U = 2 scenario behaves as described. -/
theorem claim5 :
    (∀ (st : UStates) (k : Nat) (v : List Nat), lookupU (insertU st k v) k = some v) ∧
    (∀ (st : UStates) (k k3 : Nat) (v : List Nat), k3 ≠ k →
        lookupU (insertU st k v) k3 = lookupU st k3) ∧
    (∀ (u : Nat) (lft : Int) (st : UStates) (f : OLAFrame),
        u < (insertU st f.universe_id f.data).length →
        applyEvent u lft st f = .error .tooManyUniverses) ∧
    (∀ (u : Nat) (lft : Int) (st : UStates) (f : OLAFrame),
        (insertU st f.universe_id f.data).length ≤ u → f.duration_ms = 0 →
        applyEvent u lft st f = .ok (insertU st f.universe_id f.data, .skip)) ∧
    (∀ (u : Nat) (lft : Int) (st : UStates) (f : OLAFrame),
        (insertU st f.universe_id f.data).length ≤ u → f.duration_ms ≠ 0 →
        (insertU st f.universe_id f.data).length ≠ u →
        applyEvent u lft st f = .error .incompleteUniverseSet) ∧
    (∀ (u : Nat) (lft : Int) (st : UStates) (f : OLAFrame),
        f.duration_ms ≠ 0 → (insertU st f.universe_id f.data).length = u →
        applyEvent u lft st f =
          .ok (insertU st f.universe_id f.data,
            .commit (if f.duration_ms = -1 then lft else f.duration_ms))) ∧
    (∀ (u : Nat) (lft : Int) (st : UStates) (f : OLAFrame) (st2 : UStates) (dms : Int),
        1 ≤ lft → (f.duration_ms = -1 ∨ 0 ≤ f.duration_ms) →
        applyEvent u lft st f = .ok (st2, .commit dms) → 1 ≤ dms) ∧
    (applyEvent 2 1 [] ⟨0, 0, List.replicate 512 0⟩ =
        .ok ([(0, List.replicate 512 0)], .skip) ∧
      applyEvent 2 1 [(0, List.replicate 512 0)] ⟨0, 1, List.replicate 512 0⟩ =
        .ok ([(0, List.replicate 512 0), (1, List.replicate 512 0)], .skip) ∧
      applyEvent 2 1 [(0, List.replicate 512 0), (1, List.replicate 512 0)]
          ⟨3, 0, List.replicate 512 0⟩ =
        .ok ([(0, List.replicate 512 0), (1, List.replicate 512 0)], .commit 3) ∧
      applyEvent 2 1 [(0, List.replicate 512 0)] ⟨3, 0, List.replicate 512 0⟩ =
        .error .incompleteUniverseSet) := by
  refine ⟨lookupU_insertU_self, lookupU_insertU_ne, ?_, ?_, ?_, ?_, ?_,
    rfl, rfl, rfl, rfl⟩
  · intro u lft st f h
    simp only [applyEvent]
    rw [if_pos h]
  · intro u lft st f h1 h2
    simp only [applyEvent]
    rw [if_neg (Nat.not_lt.mpr h1), if_pos h2]
  · intro u lft st f h1 h2 h3
    simp only [applyEvent]
    rw [if_neg (Nat.not_lt.mpr h1), if_neg h2, if_pos h3]
  · intro u lft st f h1 h2
    simp only [applyEvent]
    rw [if_neg (by omega), if_neg h1, if_neg (fun hh => hh h2)]
  · intro u lft st f st2 dms hlft hr h
    simp only [applyEvent] at h
    split at h
    · exact absurd h (by simp)
    · split at h
      · exact absurd h (by simp)
      · split at h
        · exact absurd h (by simp)
        · simp only [Except.ok.injEq, Prod.mk.injEq, CommitDecision.commit.injEq] at h
          obtain ⟨-, h2⟩ := h
          subst h2
          by_cases hneg : f.duration_ms = -1
          · rw [if_pos hneg]
            exact hlft
          · rw [if_neg hneg]
            rcases hr with h | h
            · exact absurd h hneg
            · rename_i hd0 _
              omega

/-- Byte-wise overwrite of a buffer starting at `p`, as std::copy and the
two byte stores of write_line do. -/
def writeBytes : List Nat → Nat → List Nat → List Nat
  | buf, _, [] => buf
  | buf, p, x :: xs => writeBytes (buf.set p x) (p + 1) xs

/-- write_line of the source: `l[0] = universe & 0xff`,
`l[1] = (universe & 0xff00) >> 8`, then the 512 channel bytes at offset
2. -/
def write_line (buf : List Nat) (pos uid : Nat) (data : List Nat) : List Nat :=
  writeBytes buf pos ((uid &&& 255) :: ((uid &&& 65280) >>> 8) :: data)

/-- The loop of write_lines: one line per universe state in table order,
each `stride` bytes after the last. -/
def write_linesGo : List Nat → Nat → Nat → UStates → List Nat
  | buf, _, _, [] => buf
  | buf, pos, stride, (k, v) :: rest =>
    write_linesGo (write_line buf pos k v) (pos + stride) stride rest

/-- write_lines of the source, starting at the head of the buffer. -/
def write_lines (buf : List Nat) (stride : Nat) (states : UStates) : List Nat :=
  write_linesGo buf 0 stride states

lemma writeBytes_length : ∀ (bs buf : List Nat) (p : Nat),
    (writeBytes buf p bs).length = buf.length
  | [], _, _ => rfl
  | x :: xs, buf, p => by
    rw [writeBytes, writeBytes_length xs]
    simp

lemma writeBytes_getD_lt : ∀ (bs buf : List Nat) (p i : Nat), i < p →
    (writeBytes buf p bs).getD i 0 = buf.getD i 0
  | [], _, _, _, _ => rfl
  | x :: xs, buf, p, i, h => by
    rw [writeBytes, writeBytes_getD_lt xs _ (p + 1) i (by omega)]
    exact getD_set_ne (by omega)

lemma writeBytes_getD_at : ∀ (bs buf : List Nat) (p j : Nat), j < bs.length →
    p + bs.length ≤ buf.length →
    (writeBytes buf p bs).getD (p + j) 0 = bs.getD j 0
  | [], _, _, j, hj, _ => by simp at hj
  | x :: xs, buf, p, 0, _, hlen => by
    rw [writeBytes]
    show (writeBytes (buf.set p x) (p + 1) xs).getD p 0 = (x :: xs).getD 0 0
    rw [writeBytes_getD_lt xs _ (p + 1) p (by omega)]
    rw [getD_set_self (by simp only [List.length_cons] at hlen; omega)]
    rfl
  | x :: xs, buf, p, j + 1, hj, hlen => by
    rw [writeBytes, show p + (j + 1) = (p + 1) + j by omega]
    rw [writeBytes_getD_at xs _ (p + 1) j (by simp only [List.length_cons] at hj; omega)
      (by simp only [List.length_set, List.length_cons] at hlen ⊢; omega)]
    rfl

lemma write_linesGo_length : ∀ (states : UStates) (buf : List Nat) (pos stride : Nat),
    (write_linesGo buf pos stride states).length = buf.length
  | [], _, _, _ => rfl
  | (k, v) :: rest, buf, pos, stride => by
    rw [write_linesGo, write_linesGo_length rest]
    simp [write_line, writeBytes_length]

lemma write_linesGo_getD_lt : ∀ (states : UStates) (buf : List Nat) (pos stride i : Nat),
    i < pos → (write_linesGo buf pos stride states).getD i 0 = buf.getD i 0
  | [], _, _, _, _, _ => rfl
  | (k, v) :: rest, buf, pos, stride, i, h => by
    rw [write_linesGo, write_linesGo_getD_lt rest _ (pos + stride) stride i (by omega)]
    exact writeBytes_getD_lt _ _ pos i h

lemma write_linesGo_row : ∀ (states : UStates) (buf : List Nat) (pos stride r : Nat),
    514 ≤ stride → (∀ e ∈ states, e.2.length = 512) →
    pos + stride * states.length ≤ buf.length → r < states.length →
    ∀ j, j < 514 →
    (write_linesGo buf pos stride states).getD (pos + stride * r + j) 0 =
      (((states.getD r (0, [])).1 &&& 255) ::
        (((states.getD r (0, [])).1 &&& 65280) >>> 8) ::
        (states.getD r (0, [])).2).getD j 0
  | [], _, _, _, r, _, _, _, hr => by simp at hr
  | (k, v) :: rest, buf, pos, stride, 0, hstride, hrows, hlen, _ => by
    intro j hj
    have hv : v.length = 512 := hrows (k, v) (by simp)
    have hbs : ((k &&& 255) :: ((k &&& 65280) >>> 8) :: v).length = 514 := by
      simp [hv]
    have hone : stride * 1 ≤ stride * ((k, v) :: rest).length :=
      Nat.mul_le_mul_left stride (by simp)
    have hlen2 : pos + stride ≤ buf.length := by
      rw [Nat.mul_one] at hone
      omega
    rw [write_linesGo, Nat.mul_zero, Nat.add_zero]
    rw [write_linesGo_getD_lt rest _ (pos + stride) stride (pos + j) (by omega)]
    rw [show write_line buf pos k v =
        writeBytes buf pos ((k &&& 255) :: ((k &&& 65280) >>> 8) :: v) from rfl]
    rw [writeBytes_getD_at _ _ pos j (by omega) (by rw [hbs]; omega)]
    rfl
  | (k, v) :: rest, buf, pos, stride, r + 1, hstride, hrows, hlen, hr => by
    intro j hj
    rw [write_linesGo]
    rw [show pos + stride * (r + 1) + j = (pos + stride) + stride * r + j by ring]
    rw [write_linesGo_row rest _ (pos + stride) stride r hstride
      (fun e he => hrows e (by simp [he]))
      (by rw [write_line, writeBytes_length]
          simp only [List.length_cons] at hlen
          have : stride * (rest.length + 1) = stride * rest.length + stride := by ring
          omega)
      (by simp only [List.length_cons] at hr; omega) j hj]
    rfl

lemma and_255_eq_mod (x : Nat) : x &&& 255 = x % 65536 % 256 := by
  rw [show (255 : Nat) = 2 ^ 8 - 1 from rfl, Nat.and_pow_two_sub_one_eq_mod]
  rw [Nat.mod_mod_of_dvd x (by norm_num)]

lemma and_65280_shift (x : Nat) : (x &&& 65280) >>> 8 = x % 65536 / 256 := by
  have h2 : ∀ i, Nat.testBit 65280 (8 + i) = Nat.testBit 255 i := by
    intro i
    rw [show (65280 : Nat) = 255 <<< 8 from rfl, Nat.testBit_shiftLeft]
    simp
  have h1 : (x &&& 65280) >>> 8 = (x >>> 8) &&& 255 := by
    apply Nat.eq_of_testBit_eq
    intro i
    rw [Nat.testBit_shiftRight, Nat.testBit_and, Nat.testBit_and,
      Nat.testBit_shiftRight, h2]
  rw [h1, show (255 : Nat) = 2 ^ 8 - 1 from rfl, Nat.and_pow_two_sub_one_eq_mod]
  rw [Nat.shiftRight_eq_div_pow]
  rw [show (65536 : Nat) = 256 * 256 from rfl, Nat.mod_mul_right_div_self]

/-- C6: the row packer writes one `stride`-byte row per table entry, in
table order (which insertU keeps ascending by universe id), without
changing the buffer length; bytes 0-1 of row `r` hold the id truncated to
16 bits in little-endian order and bytes 2-513 hold its 512 channel values
in index order; and packing the table with ids 0 and 2 at stride 514 into a
1028-byte buffer sets bytes 0,1 to 0x00,0x00 and bytes 514,515 to
0x02,0x00. -/
theorem claim6 :
    (∀ (st : UStates) (k : Nat) (v : List Nat),
        List.Chain' (fun a b => a.1 < b.1) st →
        List.Chain' (fun a b => a.1 < b.1) (insertU st k v)) ∧
    (∀ (states : UStates) (buf : List Nat) (stride : Nat),
        (write_lines buf stride states).length = buf.length) ∧
    (∀ (states : UStates) (buf : List Nat) (stride r : Nat),
        514 ≤ stride → (∀ e ∈ states, e.2.length = 512) →
        stride * states.length ≤ buf.length → r < states.length →
        (write_lines buf stride states).getD (stride * r) 0 =
            (states.getD r (0, [])).1 % 65536 % 256 ∧
          (write_lines buf stride states).getD (stride * r + 1) 0 =
            (states.getD r (0, [])).1 % 65536 / 256 ∧
          ∀ j, j < 512 →
            (write_lines buf stride states).getD (stride * r + 2 + j) 0 =
              (states.getD r (0, [])).2.getD j 0) ∧
    ((write_lines (List.replicate 1028 0) 514
        ((0, List.replicate 512 0) :: (2, List.replicate 512 0) :: [])).length = 1028 ∧
      (write_lines (List.replicate 1028 0) 514
        ((0, List.replicate 512 0) :: (2, List.replicate 512 0) :: [])).getD 0 0 = 0 ∧
      (write_lines (List.replicate 1028 0) 514
        ((0, List.replicate 512 0) :: (2, List.replicate 512 0) :: [])).getD 1 0 = 0 ∧
      (write_lines (List.replicate 1028 0) 514
        ((0, List.replicate 512 0) :: (2, List.replicate 512 0) :: [])).getD 514 0 = 2 ∧
      (write_lines (List.replicate 1028 0) 514
        ((0, List.replicate 512 0) :: (2, List.replicate 512 0) :: [])).getD 515 0 = 0) := by
  have insertU_head : ∀ (rest : UStates) (k : Nat) (v : List Nat),
      (insertU rest k v).head? = some (k, v) ∨ (insertU rest k v).head? = rest.head? := by
    intro rest k v
    match rest with
    | [] => exact Or.inl rfl
    | (k3, v3) :: r2 =>
      simp only [insertU]
      by_cases h1 : k < k3
      · rw [if_pos h1]
        exact Or.inl rfl
      · rw [if_neg h1]
        by_cases h2 : k = k3
        · rw [if_pos h2]
          exact Or.inl rfl
        · rw [if_neg h2]
          exact Or.inr rfl
  have sorted : ∀ (st : UStates) (k : Nat) (v : List Nat),
      List.Chain' (fun a b => a.1 < b.1) st →
      List.Chain' (fun a b => a.1 < b.1) (insertU st k v) := by
    intro st
    induction st with
    | nil => intro k v _; simp [insertU]
    | cons e rest ih =>
      intro k v h
      obtain ⟨k2, v2⟩ := e
      simp only [insertU]
      by_cases h1 : k < k2
      · rw [if_pos h1, List.chain'_cons]
        exact ⟨h1, h⟩
      · rw [if_neg h1]
        by_cases h2 : k = k2
        · rw [if_pos h2]
          subst h2
          cases rest with
          | nil => simp
          | cons e2 rest2 =>
            rw [List.chain'_cons] at h ⊢
            exact ⟨h.1, h.2⟩
        · rw [if_neg h2]
          rw [List.chain'_cons'] at h ⊢
          refine ⟨?_, ih k v h.2⟩
          intro b hb
          rcases insertU_head rest k v with hh | hh
          · rw [hh] at hb
            simp only [Option.mem_def, Option.some.injEq] at hb
            subst hb
            show k2 < k
            omega
          · rw [hh] at hb
            exact h.1 b hb
  have hlen_gen : ∀ (states : UStates) (buf : List Nat) (stride : Nat),
      (write_lines buf stride states).length = buf.length :=
    fun states buf stride => write_linesGo_length states buf 0 stride
  have hrow_gen : ∀ (states : UStates) (buf : List Nat) (stride r : Nat),
      514 ≤ stride → (∀ e ∈ states, e.2.length = 512) →
      stride * states.length ≤ buf.length → r < states.length →
      (write_lines buf stride states).getD (stride * r) 0 =
          (states.getD r (0, [])).1 % 65536 % 256 ∧
        (write_lines buf stride states).getD (stride * r + 1) 0 =
          (states.getD r (0, [])).1 % 65536 / 256 ∧
        ∀ j, j < 512 →
          (write_lines buf stride states).getD (stride * r + 2 + j) 0 =
            (states.getD r (0, [])).2.getD j 0 := by
    intro states buf stride r hstride hrows hlen hr
    have hrow := write_linesGo_row states buf 0 stride r hstride hrows
      (by omega) hr
    simp only [write_lines]
    refine ⟨?_, ?_, ?_⟩
    · have h0 := hrow 0 (by omega)
      rw [Nat.zero_add, Nat.add_zero] at h0
      rw [h0, and_255_eq_mod]
      rfl
    · have h1 := hrow 1 (by omega)
      rw [Nat.zero_add] at h1
      rw [h1, ← and_65280_shift]
      rfl
    · intro j hj
      have h2 := hrow (j + 2) (by omega)
      rw [Nat.zero_add] at h2
      rw [show stride * r + 2 + j = stride * r + (j + 2) by ring, h2]
      rfl
  have hex : ∀ e ∈ ((0, List.replicate 512 0) :: (2, List.replicate 512 0) ::
      ([] : UStates)), e.2.length = 512 := by
    intro e he
    simp only [List.mem_cons, List.not_mem_nil, or_false] at he
    rcases he with rfl | rfl <;> simp only [List.length_replicate]
  have hbuf : 514 * ((0, List.replicate 512 0) :: (2, List.replicate 512 0) ::
      ([] : UStates)).length ≤ (List.replicate 1028 (0 : Nat)).length := by
    simp only [List.length_cons, List.length_nil, List.length_replicate]
    omega
  have hrow0 := hrow_gen ((0, List.replicate 512 0) :: (2, List.replicate 512 0) :: [])
    (List.replicate 1028 0) 514 0 (by omega) hex hbuf
    (by simp only [List.length_cons, List.length_nil]; omega)
  have hrow1 := hrow_gen ((0, List.replicate 512 0) :: (2, List.replicate 512 0) :: [])
    (List.replicate 1028 0) 514 1 (by omega) hex hbuf
    (by simp only [List.length_cons, List.length_nil]; omega)
  refine ⟨sorted, hlen_gen, hrow_gen, ?_, ?_, ?_, ?_, ?_⟩
  · rw [hlen_gen, List.length_replicate]
  · exact hrow0.1
  · exact hrow0.2.1
  · exact hrow1.1
  · exact hrow1.2.1

/-- The line classification exactly as the claim words it: the line is
split at the first run of WHITESPACE into a leading token and a remainder,
and the leading token is parsed as an unsigned (32-bit) integer, raising
MalformedInteger when the token as a whole is not one. Stated for
comparison with `classify_line`; the code splits at spaces only and parses
the longest leading digit run. -/
def classify_line_claim (line : List Char) : Except ReadError RecordKind :=
  let bufv := trim line
  if bufv = show_header then .ok .header
  else if bufv.isEmpty then .ok .blank
  else
    let tok := bufv.takeWhile (fun c => !isSpace c)
    let rem := (bufv.dropWhile (fun c => !isSpace c)).dropWhile isSpace
    if !tok.isEmpty && tok.all isDigit && decide (decValue tok < 4294967296) then
      if rem.isEmpty then .ok (.duration (decValue tok))
      else
        match ParseChans rem with
        | .error e => .error (.chan e)
        | .ok dd => .ok (.universeData (decValue tok) dd)
    else .error .malformedInteger

/-- The classification under the amended claim: the line is split at the
first run of SPACES (0x20) only, and the leading token's longest leading
digit run is the integer, MalformedInteger arising exactly when that run is
empty or its value exceeds the unsigned 32-bit range. -/
def classify_line_amended (line : List Char) : Except ReadError RecordKind :=
  let bufv := trim line
  if bufv = show_header then .ok .header
  else if bufv.isEmpty then .ok .blank
  else
    let tok := bufv.takeWhile (fun c => !(c == ' '))
    let rem := (bufv.dropWhile (fun c => !(c == ' '))).dropWhile (fun c => c == ' ')
    let ds := tok.takeWhile isDigit
    if ds.isEmpty then .error .malformedInteger
    else if decValue ds < 4294967296 then
      if rem.isEmpty then .ok (.duration (decValue ds))
      else
        match ParseChans rem with
        | .error e => .error (.chan e)
        | .ok dd => .ok (.universeData (decValue ds) dd)
    else .error .malformedInteger

/-- Counterexample to C4 as stated: on the line "5<TAB>7" the code returns
Duration 5 (split_char only splits at spaces, and from_chars stops at the
tab), while splitting at the first whitespace run would give UniverseData
with id 5 and channel list "7". -/
theorem claim4_cex :
    classify_line ('5' :: '\t' :: '7' :: []) ≠
      classify_line_claim ('5' :: '\t' :: '7' :: []) := by
  decide

lemma take_findIdx (q : α → Bool) : ∀ l : List α,
    l.take (l.findIdx q) = l.takeWhile (fun a => !q a)
  | [] => rfl
  | a :: l => by
    rw [List.findIdx_cons]
    cases h : q a
    · show (a :: l).take (l.findIdx q + 1) = _
      rw [List.take_succ_cons, List.takeWhile_cons_of_pos (by simp [h]),
        take_findIdx q l]
    · show (a :: l).take 0 = _
      rw [List.take_zero, List.takeWhile_cons_of_neg (by simp [h])]

lemma drop_findIdx (q : α → Bool) : ∀ l : List α,
    l.drop (l.findIdx q) = l.dropWhile (fun a => !q a)
  | [] => rfl
  | a :: l => by
    rw [List.findIdx_cons]
    cases h : q a
    · show (a :: l).drop (l.findIdx q + 1) = _
      rw [List.drop_succ_cons, List.dropWhile_cons_of_pos (by simp [h]),
        drop_findIdx q l]
    · show (a :: l).drop 0 = _
      rw [List.drop_zero, List.dropWhile_cons_of_neg (by simp [h])]

lemma takeWhile_digit_append_spaces : ∀ (tok w : List Char), (∀ a ∈ w, a = ' ') →
    (tok ++ w).takeWhile isDigit = tok.takeWhile isDigit
  | [], w, hw => by
    cases w with
    | nil => rfl
    | cons a w2 =>
      have ha : a = ' ' := hw a (by simp)
      subst ha
      rw [List.nil_append, List.takeWhile_cons_of_neg (by decide)]
      rfl
  | x :: xs, w, hw => by
    rw [List.cons_append, List.takeWhile_cons, List.takeWhile_cons]
    cases h : isDigit x
    · rfl
    · rw [takeWhile_digit_append_spaces xs w hw]

lemma from_chars_u32_congr {a b : List Char} (h : a.takeWhile isDigit = b.takeWhile isDigit) :
    from_chars_u32 a = from_chars_u32 b := by
  simp only [from_chars_u32, h]

lemma split_char_space (s : List Char) :
    from_chars_u32 (split_char s ' ').1 =
      from_chars_u32 (s.takeWhile (fun c => !(c == ' '))) ∧
    (split_char s ' ').2 =
      (s.dropWhile (fun c => !(c == ' '))).dropWhile (fun c => c == ' ') := by
  simp only [split_char]
  by_cases hb : s.findIdx (fun x => x == ' ') = s.length
  · rw [if_pos hb]
    have ht : s.takeWhile (fun c => !(c == ' ')) = s := by
      rw [← take_findIdx, hb, List.take_length]
    have hd : s.dropWhile (fun c => !(c == ' ')) = [] := by
      rw [← drop_findIdx, hb, List.drop_length]
    constructor
    · rw [ht]
    · rw [hd]
      rfl
  · rw [if_neg hb]
    have hw0 := take_findIdx (fun x => !(x == ' ')) (s.drop (s.findIdx (fun x => x == ' ')))
    simp only [Bool.not_not] at hw0
    have hd0 := drop_findIdx (fun x => !(x == ' ')) (s.drop (s.findIdx (fun x => x == ' ')))
    simp only [Bool.not_not] at hd0
    constructor
    · have h1 : s.take (s.findIdx (fun x => x == ' ') +
          (s.drop (s.findIdx (fun x => x == ' '))).findIdx (fun x => !(x == ' '))) =
          s.takeWhile (fun c => !(c == ' ')) ++
            (s.drop (s.findIdx (fun x => x == ' '))).takeWhile (fun a => a == ' ') := by
        rw [List.take_add, take_findIdx, hw0]
      rw [h1]
      apply from_chars_u32_congr
      apply takeWhile_digit_append_spaces
      intro a ha
      have := List.mem_takeWhile_imp ha
      simpa using this
    · rw [← List.drop_drop, hd0, drop_findIdx]

/-- C4 (amended): for every input line, the reader classifies it as the
claim states with two changes forced by the code: the split is at the first
run of spaces (0x20) only, not of all whitespace, and the leading token's
longest leading digit run is what from_chars parses, failing only when the
token does not start with a digit or the value exceeds the unsigned 32-bit
range; trimming, header and blank skipping, Duration versus UniverseData by
presence of a remainder, and the channel decoding of the remainder are as
claimed. -/
theorem claim4 (line : List Char) : classify_line line = classify_line_amended line := by
  simp only [classify_line, classify_line_amended]
  by_cases hh : trim line = show_header
  · rw [if_pos hh, if_pos hh]
  · rw [if_neg hh, if_neg hh]
    by_cases he : (trim line).isEmpty = true
    · rw [if_pos he, if_pos he]
    · rw [if_neg he, if_neg he]
      obtain ⟨h1, h2⟩ := split_char_space (trim line)
      rw [h2, h1]
      simp only [from_chars_u32]
      by_cases hds : (((trim line).takeWhile (fun c => !(c == ' '))).takeWhile
          isDigit).isEmpty = true
      · rw [if_pos hds, if_pos hds]
      · rw [if_neg hds, if_neg hds]
        by_cases hlt : decValue (((trim line).takeWhile (fun c => !(c == ' '))).takeWhile
            isDigit) < 4294967296
        · rw [if_pos hlt, if_pos hlt]
        · rw [if_neg hlt, if_neg hlt]

end olavc
